import Mathlib

/-!
Verification development for the WaterCodeFlow memory-watcher repository.

The development shallowly embeds the parts of the C sources that the
specification talks about:

* `FastStorage` — the append-only mmap key-value store of
  `src/memwatch/src/faststorage_fast.c`.  The mmapped file is modelled
  structurally: the open-addressed hash table is a total function from slot
  index to `HashEntry` (the C array, indexed within `num_slots`), and the
  record arena is the list of records in append order, each remembering the
  file offset it was written at.  Reading the record stored at a file offset
  (`mmap_ptr + offset` in C) is modelled by looking the offset up in that
  list; an offset no record was written at reads unrelated bytes in C and is
  modelled as a key mismatch.
* `Memwatch` — the capture engine of `src/memwatch/src/memwatch.c`: the
  event ring (a total function from slot index to `PageEvent`, with
  head/tail indices reduced mod the capacity, exactly as the C array), the
  SIGSEGV handler, the page table (the open-addressed map from page base to
  its region list, modelled as an association list), and the worker loop
  body that turns one raw ring event into published change events.
* `Watcher` — the alternative handler of `src/watcher/memwatch.c`.
* `MinimalCore` — the region registry of
  `src/memwatch/src/memwatch_core_minimal.c`.

Machine integers are `Nat` with an explicit `% 2 ^ 32` (or `% 2 ^ 64`)
wherever the C type can overflow and the overflow is observable: the
sequence counter, drop counter, region ids, epochs and record counts are
`uint32_t`/`atomic_uint`, the FNV hashes are `uint32_t`/`uint64_t`, and the
hash-table slot `offset` field is a `uint32_t` that a 64-bit arena offset is
truncated into.  Observable effects that the C performs through the
operating system (`mprotect`, re-raising a signal) are modelled as explicit
action values returned next to the new state.
-/

namespace FastStorage

/-- Constants of faststorage_fast.c. -/
def FS_MAGIC : Nat := 0xFDB20024

def FS_VERSION : Nat := 2

def FS_MIN_CAPACITY : Nat := 1024 * 1024

def FS_INITIAL_SLOTS : Nat := 16384

def FS_KEY_MAX : Nat := 256

def FS_VALUE_MAX : Nat := 100 * 1024

/-- sizeof(RecordHeader): four packed uint32 fields. -/
def RECORD_HEADER_SIZE : Nat := 16

/-- sizeof(FileHeader): packed 4+4+8+8+4+4+8+4+4 bytes. -/
def HEADER_SIZE : Nat := 48

/-- fs_hash: FNV-1a over the bytes of a NUL-terminated C string, as a
uint32.  Keys are modelled as their byte lists (without the terminating
NUL, and containing no interior zero byte, which is what the C string
iteration assumes). -/
def fs_hash (key : List Nat) : Nat :=
  key.foldl (fun h c => ((h ^^^ c) * 16777619) % 2 ^ 32) 2166136261

/-- fs_crc32: the byte-at-a-time checksum used for the file header. -/
def fs_crc32 (data : List Nat) : Nat :=
  (data.foldl (fun crc b => (crc >>> 8) ^^^ ((crc ^^^ b) &&& 0xff)) 0xffffffff) ^^^ 0xffffffff

/-- fs_next_power_of_two: the bit-smearing round-up (n is size_t, 64-bit). -/
def fs_next_power_of_two (n : Nat) : Nat :=
  if n ≤ 1 then 1 else
    let m := n - 1
    let m := m ||| (m >>> 1)
    let m := m ||| (m >>> 2)
    let m := m ||| (m >>> 4)
    let m := m ||| (m >>> 8)
    let m := m ||| (m >>> 16)
    let m := m ||| (m >>> 32)
    m + 1

/-- One entry of the open-addressed hash table: `(offset, hash)`, both
uint32; offset 0 means the slot is empty. -/
structure HashEntry where
  offset : Nat
  hash : Nat


/-- One record of the append-only arena:
`{magic, key_len, value_len, pad, key, value}` written at file offset
`offset` (the uint64 `data_end` at the time of the write). -/
structure FsRecord where
  offset : Nat
  magic : Nat
  key : List Nat
  value : List Nat


/-- The in-memory view of an open store (FastStorageImpl plus the mapped
file).  `slots` is the hash-table array (total function; the C code only
indexes it below `num_slots`). -/
structure FS where
  slots : Nat → HashEntry
  num_slots : Nat
  arena : List FsRecord
  data_end : Nat
  num_entries : Nat
  file_size : Nat

/-- Reading the record stored at a file offset.  Offsets the store wrote a
record at resolve to that record; any other offset reads unrelated bytes in
C, which the key comparison then rejects, so it is modelled as `none`. -/
def recordAt (fs : FS) (off : Nat) : Option FsRecord :=
  fs.arena.find? (fun r => r.offset = off)

/-- The key comparison of fs_find_slot: the stored hash must equal the
probe hash, and the record's key bytes must equal the probe key.  The C
copies at most FS_KEY_MAX-1 key bytes into a buffer and strcmp's; for
records written by faststorage_write (keys of at most 255 NUL-free bytes)
that equals list equality, and a dangling offset is a mismatch. -/
def entryMatches (fs : FS) (e : HashEntry) (key : List Nat) (hash : Nat) : Bool :=
  e.hash = hash &&
    match recordAt fs e.offset with
    | some r => decide (r.key = key)
    | none => false

/-- Result of fs_find_slot: 0 = stopped at an empty slot, 1 = found the
key, -1 = probed every slot without stopping (table full). -/
inductive SlotRes where
  | empty (idx : Nat)
  | found (idx : Nat)
  | full


/-- The linear-probe loop of fs_find_slot; `probe` counts the remaining
probes (the C loop runs at most `num_slots` times). -/
def fs_find_slot_aux (fs : FS) (key : List Nat) (hash : Nat) : Nat → Nat → SlotRes
  | _, 0 => .full
  | idx, probe + 1 =>
    let e := fs.slots idx
    if e.offset = 0 then .empty idx
    else if entryMatches fs e key hash then .found idx
    else fs_find_slot_aux fs key hash ((idx + 1) % fs.num_slots) probe

/-- fs_find_slot: probe from `hash % num_slots`. -/
def fs_find_slot (fs : FS) (key : List Nat) : SlotRes :=
  fs_find_slot_aux fs key (fs_hash key) (fs_hash key % fs.num_slots) fs.num_slots

/-- Error values surfaced through errno by the store. -/
inductive FsErr where
  | EINVAL
  | ENAMETOOLONG
  | ENOSPC
  | ENOENT
  | ERANGE


/-- fs_grow_file: double-and-round-up growth of the mapped file.  Only the
mapping size changes; the hash table, arena and `data_end` are untouched.
Syscall failure of the growth path is not modelled (the claims about the
store all exclude growth failure). -/
def fs_grow_file (fs : FS) (new_size : Nat) : FS :=
  if new_size ≤ fs.file_size then fs
  else
    let ns := fs_next_power_of_two new_size
    let ns := if ns < FS_MIN_CAPACITY then FS_MIN_CAPACITY else ns
    { fs with file_size := ns }

/-- The body of faststorage_write once a slot (empty or matching) has been
found: append the record at `data_end`, point the slot at it, bump
`data_end` and `num_entries`.  The slot's `offset` field is a uint32, so
the 64-bit record offset is truncated mod 2^32 when stored. -/
def fs_write_at_slot (fs : FS) (key value : List Nat) (slot_idx : Nat) : FS :=
  let key_len := key.length + 1
  let record_size := RECORD_HEADER_SIZE + key_len + value.length
  let record_offset := fs.data_end
  let fs :=
    if record_offset + record_size > fs.file_size then fs_grow_file fs (fs.file_size * 2) else fs
  let newRec : FsRecord := { offset := record_offset, magic := FS_MAGIC, key := key, value := value }
  { fs with
    arena := fs.arena ++ [newRec]
    slots := fun j =>
      if j = slot_idx then { offset := record_offset % 2 ^ 32, hash := fs_hash key } else fs.slots j
    data_end := record_offset + record_size
    num_entries := (fs.num_entries + 1) % 2 ^ 32 }

/-- faststorage_write. -/
def faststorage_write (fs : FS) (key value : List Nat) : Except FsErr FS :=
  if value.length > FS_VALUE_MAX then .error .EINVAL
  else if key.length + 1 > FS_KEY_MAX then .error .ENAMETOOLONG
  else
    match fs_find_slot fs key with
    | .full => .error .ENOSPC
    | .empty i => .ok (fs_write_at_slot fs key value i)
    | .found i => .ok (fs_write_at_slot fs key value i)

/-- faststorage_read with an output buffer of `buf_len` bytes.  The
`none` branch of `recordAt` is unreachable when the slot was found (the
probe verified the record). -/
def faststorage_read (fs : FS) (key : List Nat) (buf_len : Nat) : Except FsErr (List Nat) :=
  match fs_find_slot fs key with
  | .found i =>
    match recordAt fs (fs.slots i).offset with
    | some r => if r.value.length > buf_len then .error .ERANGE else .ok r.value
    | none => .error .ENOENT
  | _ => .error .ENOENT

/-- faststorage_delete: clear the slot's offset (0 is the "empty" marker
probes stop at) and decrement the uint32 record count; the arena is not
touched. -/
def faststorage_delete (fs : FS) (key : List Nat) : Except FsErr FS :=
  match fs_find_slot fs key with
  | .found i =>
    .ok { fs with
      slots := fun j => if j = i then { offset := 0, hash := (fs.slots i).hash } else fs.slots j
      num_entries := (fs.num_entries + 2 ^ 32 - 1) % 2 ^ 32 }
  | _ => .error .ENOENT

/-- faststorage_exists. -/
def faststorage_exists (fs : FS) (key : List Nat) : Bool :=
  match fs_find_slot fs key with
  | .found _ => true
  | _ => false

/-- faststorage_count: the header's record count. -/
def faststorage_count (fs : FS) : Nat := fs.num_entries

/-- The store produced by fs_init_header on a fresh file of the given
capacity: 16384 empty slots, arena starting right after the header and
the slot array. -/
def freshFS (capacity : Nat) : FS :=
  { slots := fun _ => ⟨0, 0⟩
    num_slots := FS_INITIAL_SLOTS
    arena := []
    data_end := HEADER_SIZE + FS_INITIAL_SLOTS * 8
    num_entries := 0
    file_size := capacity }

/-- Unwrap a successful store operation (used to chain concrete
computations; the default is never reached in the concrete theorems). -/
def getOkFS (e : Except FsErr FS) : FS :=
  match e with
  | .ok fs => fs
  | .error _ => freshFS 0

/-- Whether a store operation reported success. -/
def exceptOkFS (e : Except FsErr FS) : Bool :=
  match e with
  | .ok _ => true
  | .error _ => false

/-- The on-disk file header (all fields little-endian). -/
structure FileHeader where
  magic : Nat
  version : Nat
  file_size : Nat
  data_end : Nat
  num_entries : Nat
  num_slots : Nat
  hash_table_offset : Nat
  crc32 : Nat
  padding : Nat


/-- Little-endian serialisation of a `w`-byte field. -/
def le_bytes (w v : Nat) : List Nat :=
  (List.range w).map (fun i => (v >>> (8 * i)) &&& 0xff)

/-- The packed header bytes, in field order. -/
def headerBytes (h : FileHeader) : List Nat :=
  le_bytes 4 h.magic ++ le_bytes 4 h.version ++ le_bytes 8 h.file_size ++
    le_bytes 8 h.data_end ++ le_bytes 4 h.num_entries ++ le_bytes 4 h.num_slots ++
    le_bytes 8 h.hash_table_offset ++ le_bytes 4 h.crc32 ++ le_bytes 4 h.padding

/-- The validation faststorage_create performs on the header of an
existing (non-fresh) file before using it: magic and version only. -/
def open_validates (h : FileHeader) : Bool :=
  (h.magic = FS_MAGIC) && (h.version = FS_VERSION)

/-- Modelled from the spec: "header carries a magic + version + arena end +
record count + CRC of the header for crash recovery" and "CRC covers header
bytes excluding the CRC field" — the stored CRC equals the checksum of the
header bytes that precede the CRC field. -/
def spec_header_crc_matches (h : FileHeader) : Bool :=
  h.crc32 = fs_crc32 ((headerBytes h).take 40)

end FastStorage

namespace Memwatch

/-- Configuration constants of memwatch.c. -/
def RING_CAPACITY : Nat := 65536

def PAGE_SIZE : Nat := 4096

def PREVIEW_SIZE : Nat := 256

def SMALL_COPY_THRESHOLD : Nat := 4096

/-- The Linux signal number the handler is installed for. -/
def SIGSEGV : Nat := 11

/-- One ring entry (PageEvent), written by the signal handler. -/
structure PageEvent where
  page_start : Nat
  fault_ip : Nat
  adapter_id : Nat
  timestamp_ns : Nat
  seq : Nat
  thread_id : Nat


instance : Inhabited PageEvent := ⟨⟨0, 0, 0, 0, 0, 0⟩⟩

/-- One tracked region (TrackedRegion), as stored by the engine.  The
per-page linked list is represented by the page table's region lists. -/
structure TrackedRegion where
  addr : Nat
  size : Nat
  last_hash : Nat
  region_id : Nat
  adapter_id : Nat
  metadata_ref : Nat
  epoch : Nat
  last_check_time_ns : Nat


/-- hash_bytes: 64-bit FNV-1a over a byte list. -/
def hash_bytes (data : List Nat) : Nat :=
  data.foldl (fun h b => ((h ^^^ b) * 1099511628211) % 2 ^ 64) 14695981039346656037

/-- Target-process memory is a byte at every address; reading a region is
reading `len` consecutive bytes. -/
def readBytes (mem : Nat → Nat) (addr len : Nat) : List Nat :=
  (List.range len).map (fun i => mem (addr + i))

/-- The ring/handler portion of the global engine state (g_state).  The
ring is the fixed C array of RING_CAPACITY entries, as a total function on
slot indices; head and tail are always reduced mod RING_CAPACITY.
`initialized` is the C test `g_state.ring != NULL`. -/
structure EngineState where
  initialized : Bool
  ring : Nat → PageEvent
  ring_head : Nat
  ring_tail : Nat
  dropped_events : Nat
  seq_counter : Nat
  tracked_region_count : Nat

/-- The externally visible effect of one signal-handler invocation.
`enqueued p` also stands for the `mprotect(p, PAGE_SIZE, READ|WRITE)` the
handler performs after publishing; `reraised` stands for restoring the
previously installed handler and re-raising the signal (signal_handler in
memwatch.c has no code path producing it; it exists so the property can be
stated). -/
inductive FaultAction where
  | ignored
  | dropped
  | enqueued (page : Nat)
  | reraised


/-- The raw event the handler populates for a fault at `addr`:
`fault_ip` is set to the fault address itself (see the C comment), the
adapter id is left 0 for the worker, and `seq` is the fetched counter. -/
def mkRawEvent (addr ts tid seqv : Nat) : PageEvent :=
  { page_start := addr / PAGE_SIZE * PAGE_SIZE
    fault_ip := addr
    adapter_id := 0
    timestamp_ns := ts
    seq := seqv
    thread_id := tid }

/-- signal_handler of memwatch.c.  It fetches a sequence number, then
either drops (ring full: next head would meet the tail) or writes the raw
event at the head slot, publishes the new head, and unprotects the faulting
page.  Every counter is an `atomic_uint` and wraps at 2^32. -/
def signal_handler (s : EngineState) (sig addr ts tid : Nat) : EngineState × FaultAction :=
  if sig ≠ SIGSEGV ∨ s.initialized = false then (s, .ignored)
  else
    let seqv := s.seq_counter
    let s1 := { s with seq_counter := (s.seq_counter + 1) % 2 ^ 32 }
    let head := s1.ring_head
    let next_head := (head + 1) % RING_CAPACITY
    if next_head = s1.ring_tail then
      ({ s1 with dropped_events := (s1.dropped_events + 1) % 2 ^ 32 }, .dropped)
    else
      let ev := mkRawEvent addr ts tid seqv
      ({ s1 with
          ring := fun j => if j = head then ev else s1.ring j
          ring_head := next_head },
        .enqueued ev.page_start)

/-- The page table: the open-addressed map from page base address to the
page's region list, modelled as an association list (the region list is in
the order page_table_find's linked list yields it). -/
abbrev PageTable := List (Nat × List TrackedRegion)

/-- page_table_find. -/
def page_table_find (pt : PageTable) (page_start : Nat) : Option (List TrackedRegion) :=
  (pt.find? (fun e => e.1 = page_start)).map (·.2)

/-- The event dictionary the worker builds and hands to the callback.
Optional fields are dict keys the worker only sometimes inserts;
`old_preview`/`old_value` have no insertion site in worker_thread_func at
all and so are `none` on every event it builds.  The storage key
"memwatch/{adapter}/{region}/{epoch}" is kept as its three numbers. -/
structure ChangeEvent where
  seq : Nat
  timestamp_ns : Nat
  adapter_id : Nat
  region_id : Nat
  how_big : Nat
  new_preview : List Nat
  new_value : Option (List Nat)
  storage_key_new : Option (Nat × Nat × Nat)
  fault_ip : Nat
  old_preview : Option (List Nat)
  old_value : Option (List Nat)


/-- The event dictionary worker_thread_func builds for a changed region:
a preview of the current bytes (at most PREVIEW_SIZE), the full current
bytes inline for regions of at most SMALL_COPY_THRESHOLD bytes, otherwise
a value-store key built from the region's pre-increment epoch. -/
def build_change_event (ev : PageEvent) (r : TrackedRegion) (mem : Nat → Nat) : ChangeEvent :=
  let preview_len := if r.size < PREVIEW_SIZE then r.size else PREVIEW_SIZE
  { seq := ev.seq
    timestamp_ns := ev.timestamp_ns
    adapter_id := r.adapter_id
    region_id := r.region_id
    how_big := r.size
    new_preview := readBytes mem r.addr preview_len
    new_value :=
      if r.size ≤ SMALL_COPY_THRESHOLD then some (readBytes mem r.addr r.size) else none
    storage_key_new :=
      if r.size ≤ SMALL_COPY_THRESHOLD then none else some (r.adapter_id, r.region_id, r.epoch)
    fault_ip := ev.fault_ip
    old_preview := none
    old_value := none }

/-- The per-region body of the worker loop: recompute the content hash; on
a change build the event and update the region's stored hash and epoch
(uint32), otherwise leave the region untouched and publish nothing. -/
def process_region (ev : PageEvent) (mem : Nat → Nat) (r : TrackedRegion) :
    Option ChangeEvent × TrackedRegion :=
  let current_hash := hash_bytes (readBytes mem r.addr r.size)
  if current_hash ≠ r.last_hash then
    (some (build_change_event ev r mem),
      { r with last_hash := current_hash, epoch := (r.epoch + 1) % 2 ^ 32 })
  else (none, r)

/-- Processing of one drained raw event: look the faulted page up; for
each region on it run `process_region`; the change events built (the
callback invocations, in region-list order) and the mutated page table are
returned.  A page with no entry publishes nothing. -/
def process_page_event (pt : PageTable) (mem : Nat → Nat) (ev : PageEvent) :
    List ChangeEvent × PageTable :=
  match page_table_find pt ev.page_start with
  | none => ([], pt)
  | some regions =>
    let results := regions.map (process_region ev mem)
    (results.filterMap Prod.fst,
      pt.map (fun e => if e.1 = ev.page_start then (e.1, results.map Prod.snd) else e))

/-- Combined state for runs that interleave faults and worker drains. -/
structure SysState where
  eng : EngineState
  pt : PageTable
  delivered : List (List ChangeEvent)

/-- One worker iteration that found the ring non-empty: copy the tail
event, publish the new tail, process the event.  The events built during
this iteration form one delivered group (the callback is invoked once per
event, in order). -/
def worker_drain_one (s : SysState) (mem : Nat → Nat) : SysState :=
  if s.eng.ring_tail = s.eng.ring_head then s
  else
    let ev := s.eng.ring s.eng.ring_tail
    let eng := { s.eng with ring_tail := (s.eng.ring_tail + 1) % RING_CAPACITY }
    let out := process_page_event s.pt mem ev
    { eng := eng, pt := out.2, delivered := s.delivered ++ [out.1] }

/-- Operations of a run: a write fault hitting the handler (with its
timestamp and thread id), or one worker drain iteration reading the
target's memory at that moment. -/
inductive WOp where
  | fault (addr ts tid : Nat)
  | drain (mem : Nat → Nat)

/-- One step of the system. -/
def sys_step (s : SysState) (op : WOp) : SysState :=
  match op with
  | .fault a t i => { s with eng := (signal_handler s.eng SIGSEGV a t i).1 }
  | .drain mem => worker_drain_one s mem

/-- A whole run. -/
def sys_run (s : SysState) (ops : List WOp) : SysState :=
  ops.foldl sys_step s

/-- The engine state mw_init establishes: empty ring, head = tail = 0,
no drops, sequence counter starting at 1. -/
def init_engine : EngineState :=
  { initialized := true
    ring := fun _ => default
    ring_head := 0
    ring_tail := 0
    dropped_events := 0
    seq_counter := 1
    tracked_region_count := 0 }

/-- A freshly initialised system with a given page table (mw_track only
touches the page table and regions, not the ring). -/
def init_sys (pt : PageTable) : SysState :=
  { eng := init_engine, pt := pt, delivered := [] }

/-- Number of fault operations in a run. -/
def faultCount (ops : List WOp) : Nat :=
  ops.countP (fun op => match op with | .fault _ _ _ => true | _ => false)

/-- Number of entries currently in the ring. -/
def ringUsed (e : EngineState) : Nat :=
  (e.ring_head + RING_CAPACITY - e.ring_tail) % RING_CAPACITY

/-- The i-th pending ring entry, counting from the tail. -/
def ringAt (e : EngineState) (i : Nat) : PageEvent :=
  e.ring ((e.ring_tail + i) % RING_CAPACITY)

/-- The sequence numbers of the delivered groups (one per drained raw
event that published at least one change event). -/
def groupSeqs (d : List (List ChangeEvent)) : List Nat :=
  d.filterMap (fun g => g.head?.map (·.seq))

/-- The fields of mw_get_stats that the claims mention, computed exactly
as the C does from the atomics. -/
structure Stats where
  tracked_regions : Nat
  ring_capacity : Nat
  ring_used : Nat
  dropped_events : Nat


/-- mw_get_stats. -/
def mw_get_stats (s : EngineState) : Stats :=
  { tracked_regions := s.tracked_region_count
    ring_capacity := RING_CAPACITY
    ring_used :=
      if s.ring_head ≥ s.ring_tail then s.ring_head - s.ring_tail
      else RING_CAPACITY - s.ring_tail + s.ring_head
    dropped_events := s.dropped_events }

/-- The non-seq payload of a raw event (what the claim about drops calls
the event's content). -/
def eventContent (e : PageEvent) : Nat × Nat × Nat × Nat × Nat :=
  (e.page_start, e.fault_ip, e.adapter_id, e.timestamp_ns, e.thread_id)

/-- The region registry of memwatch.c, as far as id assignment is
concerned: the id-indexed region array (as an association list) and the
uint32 `next_region_id`.  Allocation failure and the page-table/protection
side of mw_track are not modelled here. -/
structure RegTable where
  regions : List (Nat × TrackedRegion)
  next_region_id : Nat

/-- mw_track: take the next id (post-incrementing the uint32 counter),
store the region with its baseline hash computed from current memory. -/
def mw_track (t : RegTable) (addr size adapter_id metadata_ref now : Nat) (mem : Nat → Nat) :
    Nat × RegTable :=
  let region_id := t.next_region_id
  (region_id,
    { regions := t.regions ++
        [(region_id,
          { addr := addr
            size := size
            last_hash := hash_bytes (readBytes mem addr size)
            region_id := region_id
            adapter_id := adapter_id
            metadata_ref := metadata_ref
            epoch := 0
            last_check_time_ns := now })]
      next_region_id := (t.next_region_id + 1) % 2 ^ 32 })

/-- mw_untrack: remove the region if the id is live; `next_region_id` is
not touched. -/
def mw_untrack (t : RegTable) (region_id : Nat) : RegTable × Bool :=
  if (t.regions.find? (fun e => e.1 = region_id)).isSome then
    ({ t with regions := t.regions.filter (fun e => e.1 ≠ region_id) }, true)
  else (t, false)

/-- Registry operations. -/
inductive RegOp where
  | track (addr size adapter metadata now : Nat) (mem : Nat → Nat)
  | untrack (region_id : Nat)

/-- One registry step, accumulating the ids handed out. -/
def reg_step : RegTable × List Nat → RegOp → RegTable × List Nat
  | (t, ids), .track a s ad m n mem =>
    let r := mw_track t a s ad m n mem
    (r.2, ids ++ [r.1])
  | (t, ids), .untrack rid => ((mw_untrack t rid).1, ids)

/-- A registry run from a table, returning the final table and all ids
returned by the track calls, in call order. -/
def reg_run (t : RegTable) (ops : List RegOp) : RegTable × List Nat :=
  ops.foldl reg_step (t, [])

/-- The registry mw_init establishes: `next_region_id = 1`. -/
def init_reg : RegTable :=
  { regions := [], next_region_id := 1 }

/-- Number of track operations in a registry run. -/
def trackCount (ops : List RegOp) : Nat :=
  ops.countP (fun op => match op with | .track _ _ _ _ _ _ => true | _ => false)

end Memwatch

namespace Watcher

/-- Page size reported by sysconf(_SC_PAGESIZE) on the target platform. -/
def page_size : Nat := 4096

/-- align_to_page: round an address down to its page base (the C masks
with the page-size complement; for a power-of-two page size that is
truncating division). -/
def align_to_page (addr : Nat) : Nat :=
  addr / page_size * page_size

/-- calculate_page_count: pages spanned by `[addr, addr+size)`. -/
def calculate_page_count (addr size : Nat) : Nat :=
  ((addr + size + page_size - 1) / page_size * page_size - align_to_page addr) / page_size

/-- One tracked region of src/watcher/memwatch.c, as the fault path sees
it (tag, Python object and old-value capture do not matter for fault
classification). -/
structure WRegion where
  page_addr : Nat
  actual_addr : Nat
  size : Nat


/-- find_region_by_addr: scan every region for one whose byte range
contains the fault address.  The list is the hash table's regions in
bucket-iteration order. -/
def find_region_by_addr (regions : List WRegion) (fault_addr : Nat) : Option WRegion :=
  regions.find? (fun r => r.actual_addr ≤ fault_addr && fault_addr < r.actual_addr + r.size)

/-- What one segv_handler invocation does: either restore the previously
installed handler and re-raise SIGSEGV (no region matched), or mprotect
the matching region's pages read+write so the faulting write retires. -/
inductive WatcherAction where
  | reraised
  | allowWrite (page_addr len : Nat)


/-- segv_handler of src/watcher/memwatch.c. -/
def segv_handler (regions : List WRegion) (fault_addr : Nat) : WatcherAction :=
  match find_region_by_addr regions fault_addr with
  | none => .reraised
  | some r => .allowWrite r.page_addr (calculate_page_count r.actual_addr r.size * page_size)

end Watcher

namespace MinimalCore

/-- MAX_REGIONS of memwatch_core_minimal.c. -/
def MAX_REGIONS : Nat := 4096

/-- One slot of the fixed region array of the minimal core (the fields
the watch/unwatch paths touch). -/
structure MRegion where
  addr : Nat
  size : Nat
  region_id : Nat
  active : Bool


/-- The minimal core's region array, a fixed array of MAX_REGIONS slots. -/
structure MState where
  regions : Nat → MRegion

/-- The scan of memwatch_watch: the first inactive slot index, if any. -/
def firstInactive (regs : Nat → MRegion) : Option Nat :=
  (List.range MAX_REGIONS).find? (fun i => (regs i).active = false)

/-- memwatch_watch: claim the first inactive slot `i` and return the id
`i + 1` (0 when the array is full). -/
def memwatch_watch (s : MState) (addr size : Nat) : Nat × MState :=
  match firstInactive s.regions with
  | none => (0, s)
  | some i =>
    let id := i + 1
    (id,
      { regions := fun j =>
          if j = i then { addr := addr, size := size, region_id := id, active := true }
          else s.regions j })

/-- memwatch_unwatch: deactivate the first active slot carrying the id. -/
def memwatch_unwatch (s : MState) (region_id : Nat) : MState × Bool :=
  match (List.range MAX_REGIONS).find?
      (fun i => (s.regions i).active && (s.regions i).region_id == region_id) with
  | some i =>
    ({ regions := fun j =>
        if j = i then { s.regions j with active := false } else s.regions j },
      true)
  | none => (s, false)

/-- The zero-initialised region array (static storage). -/
def initM : MState :=
  { regions := fun _ => { addr := 0, size := 0, region_id := 0, active := false } }

end MinimalCore

namespace FastStorage

/-- Key "asl"; its FNV-1a hash lands in slot 563 of 16384. -/
def c6_k1 : List Nat := [97, 115, 108]

/-- Key "bea"; its FNV-1a hash also lands in slot 563 of 16384, so it is
stored at slot 564 by linear probing. -/
def c6_k2 : List Nat := [98, 101, 97]

def c6_v1 : List Nat := [1]

def c6_v2 : List Nat := [2, 3]

def c6_fs0 : FS := freshFS FS_MIN_CAPACITY

def c6_fs1 : FS := getOkFS (faststorage_write c6_fs0 c6_k1 c6_v1)

def c6_fs2 : FS := getOkFS (faststorage_write c6_fs1 c6_k2 c6_v2)

def c6_fs3 : FS := getOkFS (faststorage_delete c6_fs2 c6_k1)

/-- A store whose arena has reached 4 GiB: the next record is written at
file offset 2^32, which truncates to 0 in the uint32 slot `offset` field. -/
def c5_big : FS :=
  { slots := fun _ => ⟨0, 0⟩
    num_slots := FS_INITIAL_SLOTS
    arena := []
    data_end := 2 ^ 32
    num_entries := 0
    file_size := 2 ^ 33 }

def c5_k : List Nat := [107]

def c5_v : List Nat := [42]

def c5w_k : List Nat := [104, 105]

def c5w_v : List Nat := [9, 8, 7]

/-- A header with correct magic and version whose stored CRC (0) does not
match its header bytes. -/
def c7_h0 : FileHeader :=
  { magic := FS_MAGIC
    version := FS_VERSION
    file_size := 2 ^ 20
    data_end := 131120
    num_entries := 0
    num_slots := FS_INITIAL_SLOTS
    hash_table_offset := 48
    crc32 := 0
    padding := 0 }

def c10_k : List Nat := [104, 105]

def c10_v1 : List Nat := [9]

def c10_v2 : List Nat := [9, 9]

def c10_fs1 : FS := getOkFS (faststorage_write (freshFS FS_MIN_CAPACITY) c10_k c10_v1)

def c10_fs2 : FS := getOkFS (faststorage_write c10_fs1 c10_k c10_v2)

end FastStorage

namespace Memwatch

/-- A concrete target memory: byte `a % 251` at address `a`. -/
def mem0 : Nat → Nat := fun a => a % 251

/-- A region on page 8192 whose stored hash (0) differs from its current
content hash, so the next drain publishes a change event for it. -/
def cw_r1 : TrackedRegion :=
  { addr := 8192
    size := 8
    last_hash := 0
    region_id := 1
    adapter_id := 3
    metadata_ref := 0
    epoch := 5
    last_check_time_ns := 0 }

/-- A second region on the same page whose stored hash equals its current
content hash, so a drain publishes nothing for it. -/
def cw_r2 : TrackedRegion :=
  { cw_r1 with addr := 8300, region_id := 2, last_hash := hash_bytes (readBytes mem0 8300 8) }

def cw_pt : PageTable := [(8192, [cw_r1, cw_r2])]

def cw_ev : PageEvent := mkRawEvent 8200 11 22 9

/-- The change event the worker builds for cw_r1 when draining cw_ev. -/
def cw_e : ChangeEvent := build_change_event cw_ev cw_r1 mem0

/-- Two regions on page 8192, both with a stale stored hash, so one raw
event publishes one change event for each of them. -/
def c3_r1 : TrackedRegion :=
  { addr := 8192
    size := 8
    last_hash := 0
    region_id := 1
    adapter_id := 3
    metadata_ref := 0
    epoch := 0
    last_check_time_ns := 0 }

def c3_r2 : TrackedRegion := { c3_r1 with addr := 8300, region_id := 2 }

def c3_pt : PageTable := [(8192, [c3_r1, c3_r2])]

def c3_ops : List WOp := [.fault 8200 11 22, .drain mem0]

/-- A full ring: the head is one slot behind the tail. -/
def c8w_s : EngineState := { init_engine with ring_head := RING_CAPACITY - 1 }

def c9w_ops : List RegOp :=
  [.track 1000 16 0 0 0 mem0, .track 2000 16 0 0 0 mem0, .untrack 1, .track 3000 16 0 0 0 mem0]

/-- The invariant carried along a run for the delivery-order theorem: the
pending ring segment has strictly increasing sequence numbers, everything
assigned so far is below the counter, each delivered group (the change
events of one drained raw event) shares one sequence number, delivered
sequence numbers are below everything still pending, and the group
sequence numbers are strictly increasing. -/
structure SeqInv (e : EngineState) (d : List (List ChangeEvent)) : Prop where
  init_true : e.initialized = true
  head_lt : e.ring_head < RING_CAPACITY
  tail_lt : e.ring_tail < RING_CAPACITY
  ring_sorted : ∀ i j, i < j → j < ringUsed e → (ringAt e i).seq < (ringAt e j).seq
  ring_lt_ctr : ∀ i, i < ringUsed e → (ringAt e i).seq < e.seq_counter
  groups_const : ∀ g ∈ d, ∀ x ∈ g, ∀ y ∈ g, x.seq = y.seq
  delivered_lt_ctr : ∀ g ∈ d, ∀ x ∈ g, x.seq < e.seq_counter
  delivered_lt_ring :
    ∀ g ∈ d, ∀ x ∈ g, ∀ i, i < ringUsed e → x.seq < (ringAt e i).seq
  gseqs_sorted : (groupSeqs d).Pairwise (· < ·)

end Memwatch




open FastStorage Memwatch Watcher MinimalCore

/-- C10: a successful put always increments the stored record count by one
(as a uint32), even when the key already exists, so after two puts of the
same key on a fresh store count() reports 2 although only one key is live
(the read returns the second value and both records sit in the arena). -/
theorem faststorage_overwrite_increments_count :
  (∀ (fs : FS) (k v : List Nat) (fs2 : FS),
      faststorage_write fs k v = .ok fs2 →
      faststorage_count fs2 = (faststorage_count fs + 1) % 2 ^ 32) ∧
  (faststorage_count c10_fs2 = 2 ∧ faststorage_exists c10_fs2 c10_k = true ∧
    faststorage_read c10_fs2 c10_k 4 = .ok c10_v2 ∧ c10_fs2.arena.length = 2) := by
  constructor
  · intro fs k v fs2 hw
    unfold faststorage_write at hw
    split at hw
    · exact absurd hw (by simp)
    · split at hw
      · exact absurd hw (by simp)
      · split at hw
        · exact absurd hw (by simp)
        · simp only [Except.ok.injEq] at hw
          subst hw
          simp only [fs_write_at_slot, faststorage_count, fs_grow_file]
          split <;> first
          | rfl
          | (split <;> rfl)
        · simp only [Except.ok.injEq] at hw
          subst hw
          simp only [fs_write_at_slot, faststorage_count, fs_grow_file]
          split <;> first
          | rfl
          | (split <;> rfl)
  · exact ⟨rfl, rfl, rfl, rfl⟩

/-- C10 (witness): the general increment theorem applied to the concrete
second put (the overwrite of key c10_k). -/
theorem faststorage_overwrite_increments_count_witness :
  faststorage_write c10_fs1 c10_k c10_v2 = .ok c10_fs2 ∧
  faststorage_count c10_fs2 = (faststorage_count c10_fs1 + 1) % 2 ^ 32 :=
  ⟨rfl, faststorage_overwrite_increments_count.1 c10_fs1 c10_k c10_v2 c10_fs2 rfl⟩

/-- C7 (counterexample): a header with correct magic and version but a CRC
that does not match its header bytes is accepted by the open-time
validation of faststorage_create. -/
theorem open_accepts_mismatched_crc :
  open_validates c7_h0 = true ∧ spec_header_crc_matches c7_h0 = false :=
  ⟨rfl, rfl⟩

/-- C7 (amended): opening an existing value-store file verifies exactly the
header magic and the version and rejects the file if either is wrong; the
header CRC is not inspected, so validation is independent of the stored CRC
value. -/
theorem open_validation_amended :
  (∀ h : FileHeader, open_validates h = true ↔ h.magic = FS_MAGIC ∧ h.version = FS_VERSION) ∧
  (∀ (h : FileHeader) (c1 c2 : Nat),
      open_validates { h with crc32 := c1 } = open_validates { h with crc32 := c2 }) := by
  refine ⟨fun h => ?_, fun h c1 c2 => rfl⟩
  simp [open_validates]

/-- C6 (code bug): faststorage_delete clears the slot's offset to 0, which
is the "empty" marker linear probes stop at, not a tombstone.  On a fresh
store, keys "asl" and "bea" collide into slot 563 of 16384, so "bea" is
stored at slot 564; both round-trip, but after deleting "asl" the probe
for "bea" stops at the now-empty slot 563 and get/exists fail, although
the arena still holds both records exactly as before the delete. -/
theorem delete_clears_slot_to_empty :
  exceptOkFS (faststorage_write c6_fs0 c6_k1 c6_v1) = true ∧
  exceptOkFS (faststorage_write c6_fs1 c6_k2 c6_v2) = true ∧
  faststorage_read c6_fs2 c6_k2 16 = .ok c6_v2 ∧
  faststorage_read c6_fs2 c6_k1 16 = .ok c6_v1 ∧
  exceptOkFS (faststorage_delete c6_fs2 c6_k1) = true ∧
  c6_fs3.arena = c6_fs2.arena ∧
  c6_fs3.arena.map (fun r => r.key) = [c6_k1, c6_k2] ∧
  faststorage_exists c6_fs3 c6_k2 = false ∧
  faststorage_read c6_fs3 c6_k2 16 = .error .ENOENT :=
  ⟨rfl, rfl, rfl, rfl, rfl, rfl, rfl, rfl, rfl⟩

theorem mw_untrack_next (t : RegTable) (rid : Nat) :
    ((mw_untrack t rid).1).next_region_id = t.next_region_id := by
  unfold mw_untrack
  split <;> rfl

theorem reg_run_ids_aux :
    ∀ (ops : List RegOp) (t : RegTable) (ids : List Nat),
      t.next_region_id + trackCount ops ≤ 2 ^ 32 →
      (ops.foldl reg_step (t, ids)).2 = ids ++ List.range' t.next_region_id (trackCount ops) := by
  intro ops
  induction ops with
  | nil => intro t ids _; simp [trackCount]
  | cons op rest ih =>
    intro t ids h
    cases op with
    | track a s ad m n mem =>
      have hc : trackCount (RegOp.track a s ad m n mem :: rest) = trackCount rest + 1 := by
        simp [trackCount, List.countP_cons]
      rw [hc] at h
      have hstep : (RegOp.track a s ad m n mem :: rest).foldl reg_step (t, ids) =
          rest.foldl reg_step
            ((mw_track t a s ad m n mem).2, ids ++ [t.next_region_id]) := rfl
      rw [hstep, hc]
      rcases Nat.eq_zero_or_pos (trackCount rest) with h0 | hpos
      · have hnext : ((mw_track t a s ad m n mem).2).next_region_id + trackCount rest ≤ 2 ^ 32 := by
          rw [h0]
          have : ((mw_track t a s ad m n mem).2).next_region_id =
              (t.next_region_id + 1) % 2 ^ 32 := rfl
          rw [this]
          have := Nat.mod_lt (t.next_region_id + 1) (show 0 < 2 ^ 32 by norm_num)
          omega
        rw [ih _ _ hnext, h0]
        simp [List.range'_succ]
      · have hlt : t.next_region_id + 1 < 2 ^ 32 := by omega
        have hmod : ((mw_track t a s ad m n mem).2).next_region_id = t.next_region_id + 1 := by
          have : ((mw_track t a s ad m n mem).2).next_region_id =
              (t.next_region_id + 1) % 2 ^ 32 := rfl
          rw [this, Nat.mod_eq_of_lt hlt]
        have hle : ((mw_track t a s ad m n mem).2).next_region_id + trackCount rest ≤ 2 ^ 32 := by
          rw [hmod]; omega
        rw [ih _ _ hle, hmod]
        simp [List.range'_succ]
    | untrack rid =>
      have hc : trackCount (RegOp.untrack rid :: rest) = trackCount rest := by
        simp [trackCount, List.countP_cons]
      have hstep : (RegOp.untrack rid :: rest).foldl reg_step (t, ids) =
          rest.foldl reg_step ((mw_untrack t rid).1, ids) := rfl
      rw [hstep, hc]
      rw [ih _ _ (by rw [mw_untrack_next]; rw [hc] at h; exact h), mw_untrack_next]

/-- C9 (amended): in the full engine, mw_track hands out region ids
starting at 1, incrementing a 32-bit counter that unregistering never
rewinds, so as long as fewer than 2^32 registrations happen the returned
ids are exactly 1, 2, 3, … in order and strictly increasing (never
reused).  In the minimal core, memwatch_watch instead returns 1 plus the
index of the first inactive array slot, so ids start at 1 but a freed
slot's id is handed out again. -/
theorem region_id_assignment_amended :
  (∀ ops : List RegOp, trackCount ops < 2 ^ 32 →
      (reg_run init_reg ops).2 = List.range' 1 (trackCount ops) ∧
      ((reg_run init_reg ops).2).Pairwise (· < ·)) ∧
  (∀ (s : MState) (addr size i : Nat), firstInactive s.regions = some i →
      (memwatch_watch s addr size).1 = i + 1) := by
  constructor
  · intro ops h
    have heq := reg_run_ids_aux ops init_reg [] (by
      have : init_reg.next_region_id = 1 := rfl
      omega)
    have h1 : (reg_run init_reg ops).2 = List.range' 1 (trackCount ops) := by
      rw [reg_run, heq]; rfl
    exact ⟨h1, by rw [h1]; exact List.pairwise_lt_range' 1 (trackCount ops)⟩
  · intro s addr size i h
    unfold memwatch_watch
    rw [h]

set_option maxRecDepth 40000 in
/-- C9 (counterexample): in the minimal core, two watches return ids 1 and
2, and after unwatching id 1 the next watch returns 1 again — not an id
strictly greater than every id returned before. -/
theorem minimal_core_reuses_region_id :
  (memwatch_watch initM 1000 16).1 = 1 ∧
  (memwatch_watch (memwatch_watch initM 1000 16).2 2000 16).1 = 2 ∧
  (memwatch_unwatch (memwatch_watch (memwatch_watch initM 1000 16).2 2000 16).2 1).2 = true ∧
  (memwatch_watch
      (memwatch_unwatch (memwatch_watch (memwatch_watch initM 1000 16).2 2000 16).2 1).1
      3000 16).1 = 1 :=
  ⟨rfl, rfl, rfl, rfl⟩

set_option maxRecDepth 40000 in
/-- C9 (witness): the amended theorem evaluated on the concrete run
track, track, untrack 1, track (ids 1, 2, 3) and on the fresh minimal
core (first id 0 + 1). -/
theorem region_id_assignment_amended_witness :
  trackCount c9w_ops < 2 ^ 32 ∧
  ((reg_run init_reg c9w_ops).2 = List.range' 1 (trackCount c9w_ops) ∧
    ((reg_run init_reg c9w_ops).2).Pairwise (· < ·)) ∧
  firstInactive initM.regions = some 0 ∧
  (memwatch_watch initM 500 8).1 = 0 + 1 :=
  ⟨by decide, region_id_assignment_amended.1 c9w_ops (by decide),
    by decide, region_id_assignment_amended.2 initM 500 8 0 (by decide)⟩

/-- C1 (counterexample): with no tracked page at all (empty page table),
a SIGSEGV at address 1000003 still makes signal_handler of memwatch.c
enqueue a raw event (ring head advances, the event is written with seq 1)
and unprotect the page; the handler does not restore the previous handler
and re-raise. -/
theorem untracked_fault_still_enqueued :
  page_table_find [] ((1000003 : Nat) / PAGE_SIZE * PAGE_SIZE) = none ∧
  (signal_handler init_engine SIGSEGV 1000003 5 7).2 =
    FaultAction.enqueued (1000003 / PAGE_SIZE * PAGE_SIZE) ∧
  (signal_handler init_engine SIGSEGV 1000003 5 7).2 ≠ FaultAction.reraised ∧
  (signal_handler init_engine SIGSEGV 1000003 5 7).1.ring_head = 1 ∧
  (signal_handler init_engine SIGSEGV 1000003 5 7).1.ring 0 = mkRawEvent 1000003 5 7 1 :=
  ⟨rfl, rfl, fun h => FaultAction.noConfusion h, rfl, rfl⟩

/-- C1 (amended): in src/watcher/memwatch.c, a fault whose address is
covered by no tracked region makes segv_handler restore the previously
installed handler and re-raise (no event exists in that engine's path);
in src/memwatch/src/memwatch.c, signal_handler never restores/re-raises
on any input — while initialized it enqueues (or drops on a full ring)
for every SIGSEGV regardless of the page table. -/
theorem unrelated_fault_passthrough_amended :
  (∀ (regions : List WRegion) (fault_addr : Nat),
      find_region_by_addr regions fault_addr = none →
      segv_handler regions fault_addr = WatcherAction.reraised) ∧
  (∀ (s : EngineState) (sig addr ts tid : Nat),
      (signal_handler s sig addr ts tid).2 ≠ FaultAction.reraised) := by
  constructor
  · intro regions fault_addr h
    simp [segv_handler, h]
  · intro s sig addr ts tid
    unfold signal_handler
    by_cases h1 : sig ≠ SIGSEGV ∨ s.initialized = false
    · rw [if_pos h1]
      simp
    · rw [if_neg h1]
      by_cases h2 : (s.ring_head + 1) % RING_CAPACITY = s.ring_tail
      · rw [if_pos h2]
        simp
      · rw [if_neg h2]
        simp

/-- C1 (witness): the amended theorem applied to an empty watcher region
table and to a concrete engine fault. -/
theorem unrelated_fault_passthrough_amended_witness :
  find_region_by_addr [] 12345 = none ∧
  segv_handler [] 12345 = WatcherAction.reraised ∧
  (signal_handler init_engine SIGSEGV 77 0 0).2 ≠ FaultAction.reraised :=
  ⟨rfl, unrelated_fault_passthrough_amended.1 [] 12345 rfl,
    unrelated_fault_passthrough_amended.2 init_engine SIGSEGV 77 0 0⟩

/-- C8: when the ring is full (the next head slot would meet the tail),
the handler returns the dropped action, leaves every ring slot and both
indices unchanged, increments the uint32 drop counter, and mw_get_stats
exposes the new drop count; moreover any successful enqueue writes a raw
event fully determined by its own fault data plus the sequence counter,
and two such events differ at most in their seq field, so a drop never
changes the content of later enqueued events. -/
theorem ring_full_drop_semantics :
  ∀ (s : EngineState) (addr ts tid : Nat),
    s.initialized = true →
    (s.ring_head + 1) % RING_CAPACITY = s.ring_tail →
    ((signal_handler s SIGSEGV addr ts tid).2 = FaultAction.dropped ∧
      (signal_handler s SIGSEGV addr ts tid).1.ring = s.ring ∧
      (signal_handler s SIGSEGV addr ts tid).1.ring_head = s.ring_head ∧
      (signal_handler s SIGSEGV addr ts tid).1.ring_tail = s.ring_tail ∧
      (signal_handler s SIGSEGV addr ts tid).1.dropped_events = (s.dropped_events + 1) % 2 ^ 32 ∧
      (mw_get_stats (signal_handler s SIGSEGV addr ts tid).1).dropped_events =
        (s.dropped_events + 1) % 2 ^ 32 ∧
      (mw_get_stats (signal_handler s SIGSEGV addr ts tid).1).ring_used =
        (mw_get_stats s).ring_used) ∧
    ((∀ (s2 : EngineState) (a2 t2 i2 : Nat), s2.initialized = true →
        (s2.ring_head + 1) % RING_CAPACITY ≠ s2.ring_tail →
        (signal_handler s2 SIGSEGV a2 t2 i2).1.ring s2.ring_head =
          mkRawEvent a2 t2 i2 s2.seq_counter) ∧
      (∀ (a t i x y : Nat), eventContent (mkRawEvent a t i x) = eventContent (mkRawEvent a t i y))) := by
  intro s addr ts tid hinit hfull
  have hcond : ¬(SIGSEGV ≠ SIGSEGV ∨ s.initialized = false) := by simp [hinit]
  constructor
  · have h1 : signal_handler s SIGSEGV addr ts tid =
        ({ { s with seq_counter := (s.seq_counter + 1) % 2 ^ 32 } with
            dropped_events := (s.dropped_events + 1) % 2 ^ 32 }, FaultAction.dropped) := by
      unfold signal_handler
      rw [if_neg hcond, if_pos hfull]
    rw [h1]
    exact ⟨rfl, rfl, rfl, rfl, rfl, rfl, rfl⟩
  · constructor
    · intro s2 a2 t2 i2 h2init h2full
      have h2cond : ¬(SIGSEGV ≠ SIGSEGV ∨ s2.initialized = false) := by simp [h2init]
      unfold signal_handler
      rw [if_neg h2cond, if_neg h2full]
      simp
    · intro a t i x y
      rfl

/-- C8 (witness): the drop theorem evaluated on a concrete full ring
(head one slot behind the tail). -/
theorem ring_full_drop_semantics_witness :
  c8w_s.initialized = true ∧
  (c8w_s.ring_head + 1) % RING_CAPACITY = c8w_s.ring_tail ∧
  (signal_handler c8w_s SIGSEGV 1 2 3).2 = FaultAction.dropped ∧
  (mw_get_stats (signal_handler c8w_s SIGSEGV 1 2 3).1).dropped_events =
    (c8w_s.dropped_events + 1) % 2 ^ 32 :=
  ⟨rfl, by decide,
    (ring_full_drop_semantics c8w_s 1 2 3 rfl (by decide)).1.1,
    (ring_full_drop_semantics c8w_s 1 2 3 rfl (by decide)).1.2.2.2.2.2.1⟩

theorem process_region_fst (ev : PageEvent) (mem : Nat → Nat) (r : TrackedRegion) :
    (process_region ev mem r).1 =
      if hash_bytes (readBytes mem r.addr r.size) ≠ r.last_hash
      then some (build_change_event ev r mem) else none := by
  unfold process_region
  split <;> simp_all

theorem process_region_snd_unchanged (ev : PageEvent) (mem : Nat → Nat) (r : TrackedRegion)
    (h : hash_bytes (readBytes mem r.addr r.size) = r.last_hash) :
    (process_region ev mem r).2 = r := by
  have hn : ¬(hash_bytes (readBytes mem r.addr r.size) ≠ r.last_hash) := fun hne => hne h
  unfold process_region
  rw [if_neg hn]

theorem mem_process_page_event (pt : PageTable) (mem : Nat → Nat) (ev : PageEvent)
    (regs : List TrackedRegion) (hfind : page_table_find pt ev.page_start = some regs)
    (e : ChangeEvent) :
    e ∈ (process_page_event pt mem ev).1 ↔
      ∃ r ∈ regs, (process_region ev mem r).1 = some e := by
  unfold process_page_event
  rw [hfind]
  simp [List.filterMap_map, List.mem_filterMap, Function.comp]

theorem process_page_event_snd (pt : PageTable) (mem : Nat → Nat) (ev : PageEvent)
    (regs : List TrackedRegion) (hfind : page_table_find pt ev.page_start = some regs) :
    (process_page_event pt mem ev).2 =
      pt.map (fun x =>
        if x.1 = ev.page_start
        then (x.1, (regs.map (process_region ev mem)).map Prod.snd) else x) := by
  unfold process_page_event
  rw [hfind]

theorem page_table_find_update (pt : PageTable) (p : Nat) (nr : List TrackedRegion) :
    ∀ regs, page_table_find pt p = some regs →
      page_table_find (pt.map (fun x => if x.1 = p then (x.1, nr) else x)) p = some nr := by
  induction pt with
  | nil => intro regs h; simp [page_table_find] at h
  | cons a rest ih =>
    intro regs h
    by_cases hp : a.1 = p
    · unfold page_table_find
      rw [List.map_cons, if_pos hp,
        List.find?_cons_of_pos _ (by simpa using hp)]
      rfl
    · unfold page_table_find at h ⊢
      rw [List.find?_cons_of_neg _ (by simpa using hp)] at h
      rw [List.map_cons, if_neg hp,
        List.find?_cons_of_neg _ (by simpa using hp)]
      exact ih regs h

/-- C2: for a drained raw event and the regions of its page, the worker
publishes a change event for a region exactly when the region's recomputed
content hash differs from its stored last hash; when the hashes are equal
the region's record (its stored hash, epoch, and everything else — this
engine keeps no byte snapshot) is left unchanged in the page table. -/
theorem worker_publish_iff_hash_change :
  ∀ (pt : PageTable) (mem : Nat → Nat) (ev : PageEvent) (regs : List TrackedRegion),
    page_table_find pt ev.page_start = some regs →
    List.Pairwise (fun a b => a.region_id ≠ b.region_id) regs →
    ∀ (k : Nat) (r : TrackedRegion), regs[k]? = some r →
    ((∃ e ∈ (process_page_event pt mem ev).1, e.region_id = r.region_id) ↔
      hash_bytes (readBytes mem r.addr r.size) ≠ r.last_hash) ∧
    (hash_bytes (readBytes mem r.addr r.size) = r.last_hash →
      ∃ regs2, page_table_find (process_page_event pt mem ev).2 ev.page_start = some regs2 ∧
        regs2[k]? = some r) := by
  intro pt mem ev regs hfind hpw k r hk
  have hrmem : r ∈ regs := List.getElem?_mem hk
  have hsym : Symmetric (fun (a b : TrackedRegion) => a.region_id ≠ b.region_id) :=
    fun a b h e => h e.symm
  constructor
  · constructor
    · rintro ⟨e, he, hid⟩
      rw [mem_process_page_event pt mem ev regs hfind] at he
      obtain ⟨r2, hr2mem, hr2⟩ := he
      rw [process_region_fst] at hr2
      by_cases hch : hash_bytes (readBytes mem r2.addr r2.size) ≠ r2.last_hash
      · rw [if_pos hch] at hr2
        have he2 : e = build_change_event ev r2 mem := (Option.some.injEq _ _).mp hr2.symm
        have hid2 : r2.region_id = r.region_id := by
          rw [← hid, he2]; rfl
        by_cases hrr : r = r2
        · rw [hrr]; exact hch
        · have := hpw.forall hsym hrmem hr2mem hrr
          exact absurd hid2.symm this
      · rw [if_neg hch] at hr2
        exact absurd hr2 (by simp)
    · intro hch
      refine ⟨build_change_event ev r mem,
        (mem_process_page_event pt mem ev regs hfind _).mpr ⟨r, hrmem, ?_⟩, rfl⟩
      rw [process_region_fst, if_pos hch]
  · intro hsame
    refine ⟨(regs.map (process_region ev mem)).map Prod.snd, ?_, ?_⟩
    · rw [process_page_event_snd pt mem ev regs hfind]
      exact page_table_find_update pt ev.page_start _ regs hfind
    · rw [List.map_map, List.getElem?_map, hk]
      simp [process_region_snd_unchanged ev mem r hsame]

/-- C2 (witness): the iff theorem evaluated on a concrete page with two
regions, instantiated for the first region. -/
theorem worker_publish_iff_hash_change_witness :
  page_table_find cw_pt cw_ev.page_start = some [cw_r1, cw_r2] ∧
  List.Pairwise (fun a b => a.region_id ≠ b.region_id) [cw_r1, cw_r2] ∧
  [cw_r1, cw_r2][0]? = some cw_r1 ∧
  (((∃ e ∈ (process_page_event cw_pt mem0 cw_ev).1, e.region_id = cw_r1.region_id) ↔
      hash_bytes (readBytes mem0 cw_r1.addr cw_r1.size) ≠ cw_r1.last_hash) ∧
    (hash_bytes (readBytes mem0 cw_r1.addr cw_r1.size) = cw_r1.last_hash →
      ∃ regs2, page_table_find (process_page_event cw_pt mem0 cw_ev).2 cw_ev.page_start =
          some regs2 ∧ regs2[0]? = some cw_r1)) :=
  ⟨rfl, by simp [List.pairwise_cons]; decide, rfl,
    worker_publish_iff_hash_change cw_pt mem0 cw_ev [cw_r1, cw_r2] rfl
      (by simp [List.pairwise_cons]; decide) 0 cw_r1 rfl⟩

theorem readBytes_length (mem : Nat → Nat) (a n : Nat) : (readBytes mem a n).length = n := by
  simp [readBytes]

theorem readBytes_take (mem : Nat → Nat) (a n k : Nat) :
    (readBytes mem a n).take k = readBytes mem a (min k n) := by
  simp [readBytes, ← List.map_take, List.take_range]

/-- C4 (amended): every change event the worker publishes carries a
new-value preview of min(region size, 256) current bytes; for regions of
at most 4096 bytes the full current bytes are attached inline (and the
preview is their prefix), while larger regions get a value-store key and
no inline bytes; no event carries a previous-value preview or previous
full value — the worker never attaches old bytes. -/
theorem change_event_payload_amended :
  ∀ (pt : PageTable) (mem : Nat → Nat) (ev : PageEvent) (e : ChangeEvent),
    e ∈ (process_page_event pt mem ev).1 →
    e.old_preview = none ∧ e.old_value = none ∧
    e.new_preview.length = min e.how_big PREVIEW_SIZE ∧
    (e.how_big ≤ SMALL_COPY_THRESHOLD →
      ∃ v, e.new_value = some v ∧ v.length = e.how_big ∧
        e.new_preview = v.take PREVIEW_SIZE ∧ e.storage_key_new = none) ∧
    (SMALL_COPY_THRESHOLD < e.how_big →
      e.new_value = none ∧ e.storage_key_new ≠ none ∧
        e.new_preview.length = PREVIEW_SIZE) := by
  intro pt mem ev e he
  cases hfind : page_table_find pt ev.page_start with
  | none =>
    unfold process_page_event at he
    rw [hfind] at he
    simp at he
  | some regs =>
    rw [mem_process_page_event pt mem ev regs hfind] at he
    obtain ⟨r, _, hr⟩ := he
    rw [process_region_fst] at hr
    by_cases hch : hash_bytes (readBytes mem r.addr r.size) ≠ r.last_hash
    · rw [if_pos hch] at hr
      have he2 : e = build_change_event ev r mem := (Option.some.injEq _ _).mp hr.symm
      subst he2
      have hhb : (build_change_event ev r mem).how_big = r.size := rfl
      have hop : (build_change_event ev r mem).old_preview = none := rfl
      have hov : (build_change_event ev r mem).old_value = none := rfl
      have hnp : (build_change_event ev r mem).new_preview =
          readBytes mem r.addr (if r.size < PREVIEW_SIZE then r.size else PREVIEW_SIZE) := rfl
      have hnv : (build_change_event ev r mem).new_value =
          (if r.size ≤ SMALL_COPY_THRESHOLD then some (readBytes mem r.addr r.size)
           else none) := rfl
      have hsk : (build_change_event ev r mem).storage_key_new =
          (if r.size ≤ SMALL_COPY_THRESHOLD then none
           else some (r.adapter_id, r.region_id, r.epoch)) := rfl
      refine ⟨hop, hov, ?_, ?_, ?_⟩
      · rw [hnp, hhb, readBytes_length]
        unfold PREVIEW_SIZE
        split <;> omega
      · intro hsmall
        rw [hhb] at hsmall
        refine ⟨readBytes mem r.addr r.size, ?_, ?_, ?_, ?_⟩
        · rw [hnv, if_pos hsmall]
        · rw [readBytes_length, hhb]
        · rw [hnp, readBytes_take]
          have harg : (if r.size < PREVIEW_SIZE then r.size else PREVIEW_SIZE) =
              min PREVIEW_SIZE r.size := by
            unfold PREVIEW_SIZE
            split <;> omega
          rw [harg]
        · rw [hsk, if_pos hsmall]
      · intro hlarge
        rw [hhb] at hlarge
        have hns : ¬r.size ≤ SMALL_COPY_THRESHOLD := by omega
        refine ⟨?_, ?_, ?_⟩
        · rw [hnv, if_neg hns]
        · rw [hsk, if_neg hns]
          simp
        · rw [hnp, readBytes_length]
          have hnlt : ¬r.size < PREVIEW_SIZE := by
            unfold PREVIEW_SIZE
            unfold SMALL_COPY_THRESHOLD at hlarge
            omega
          rw [if_neg hnlt]
    · rw [if_neg hch] at hr
      exact absurd hr (by simp)

/-- C4 (counterexample): the one change event the worker delivers for a
concrete 8-byte changed region carries no previous-value preview and no
previous value at all (both dict keys absent), although it does carry the
full new value inline. -/
theorem delivered_event_lacks_old_values :
  ((process_page_event cw_pt mem0 cw_ev).1.map (fun e => (e.old_preview, e.old_value))) =
    [(none, none)] ∧
  ((process_page_event cw_pt mem0 cw_ev).1.map (fun e => e.new_value.isSome)) = [true] :=
  ⟨rfl, rfl⟩

/-- C4 (witness): the amended payload theorem evaluated on the concrete
delivered event of the 8-byte region cw_r1. -/
theorem change_event_payload_amended_witness :
  cw_e ∈ (process_page_event cw_pt mem0 cw_ev).1 ∧
  (cw_e.old_preview = none ∧ cw_e.old_value = none ∧
    cw_e.new_preview.length = min cw_e.how_big PREVIEW_SIZE ∧
    (cw_e.how_big ≤ SMALL_COPY_THRESHOLD →
      ∃ v, cw_e.new_value = some v ∧ v.length = cw_e.how_big ∧
        cw_e.new_preview = v.take PREVIEW_SIZE ∧ cw_e.storage_key_new = none) ∧
    (SMALL_COPY_THRESHOLD < cw_e.how_big →
      cw_e.new_value = none ∧ cw_e.storage_key_new ≠ none ∧
        cw_e.new_preview.length = PREVIEW_SIZE)) :=
  ⟨show cw_e ∈ [cw_e] from List.Mem.head _,
    change_event_payload_amended cw_pt mem0 cw_ev cw_e
      (show cw_e ∈ [cw_e] from List.Mem.head _)⟩

theorem fs_find_slot_aux_after_update (fs fs2 : FS) (key : List Nat) (hash target : Nat)
    (hns : fs2.num_slots = fs.num_slots)
    (hsame : ∀ j, j ≠ target → fs2.slots j = fs.slots j)
    (hmatch : ∀ j, j ≠ target →
      entryMatches fs2 (fs.slots j) key hash = entryMatches fs (fs.slots j) key hash)
    (hnew0 : ¬(fs2.slots target).offset = 0)
    (hnewm : entryMatches fs2 (fs2.slots target) key hash = true) :
    ∀ (probe idx : Nat),
      (fs_find_slot_aux fs key hash idx probe = .empty target ∨
        fs_find_slot_aux fs key hash idx probe = .found target) →
      fs_find_slot_aux fs2 key hash idx probe = .found target := by
  intro probe
  induction probe with
  | zero =>
    intro idx h
    rcases h with h | h <;> simp [fs_find_slot_aux] at h
  | succ p ih =>
    intro idx h
    by_cases hidx : idx = target
    · subst hidx
      show (if (fs2.slots idx).offset = 0 then SlotRes.empty idx
        else if entryMatches fs2 (fs2.slots idx) key hash then SlotRes.found idx
        else fs_find_slot_aux fs2 key hash ((idx + 1) % fs2.num_slots) p) = SlotRes.found idx
      rw [if_neg hnew0, if_pos hnewm]
    · have hstep : fs_find_slot_aux fs key hash idx (p + 1) =
          (if (fs.slots idx).offset = 0 then SlotRes.empty idx
           else if entryMatches fs (fs.slots idx) key hash then SlotRes.found idx
           else fs_find_slot_aux fs key hash ((idx + 1) % fs.num_slots) p) := rfl
      rw [hstep] at h
      by_cases h0 : (fs.slots idx).offset = 0
      · rw [if_pos h0] at h
        rcases h with h | h
        · simp only [SlotRes.empty.injEq] at h
          exact absurd h hidx
        · simp at h
      · rw [if_neg h0] at h
        by_cases hm : entryMatches fs (fs.slots idx) key hash = true
        · rw [if_pos hm] at h
          rcases h with h | h
          · simp at h
          · simp only [SlotRes.found.injEq] at h
            exact absurd h hidx
        · rw [if_neg hm] at h
          show (if (fs2.slots idx).offset = 0 then SlotRes.empty idx
            else if entryMatches fs2 (fs2.slots idx) key hash then SlotRes.found idx
            else fs_find_slot_aux fs2 key hash ((idx + 1) % fs2.num_slots) p) =
              SlotRes.found target
          rw [hsame idx hidx, if_neg h0,
            if_neg (by rw [hmatch idx hidx]; exact hm), hns]
          exact ih _ h

theorem recordAt_arena_append (fs fs2 : FS) (r0 : FsRecord)
    (harena : fs2.arena = fs.arena ++ [r0]) (off : Nat) (h : off ≠ r0.offset) :
    recordAt fs2 off = recordAt fs off := by
  unfold recordAt
  rw [harena, List.find?_append]
  have hnil : List.find? (fun r => decide (r.offset = off)) [r0] = none := by
    simp only [List.find?]
    have : ¬r0.offset = off := fun he => h he.symm
    simp [this]
  rw [hnil]
  cases List.find? (fun r => decide (r.offset = off)) fs.arena <;> rfl

theorem recordAt_arena_append_new (fs fs2 : FS) (r0 : FsRecord)
    (harena : fs2.arena = fs.arena ++ [r0])
    (hnone : ∀ r ∈ fs.arena, r.offset ≠ r0.offset) :
    recordAt fs2 r0.offset = some r0 := by
  unfold recordAt
  rw [harena, List.find?_append]
  have h1 : fs.arena.find? (fun r => decide (r.offset = r0.offset)) = none :=
    List.find?_eq_none.mpr (fun x hx => by simpa using hnone x hx)
  rw [h1]
  simp [List.find?]

theorem entryMatches_congr (fs fs2 : FS) (e : HashEntry) (key : List Nat) (hash : Nat)
    (h : recordAt fs2 e.offset = recordAt fs e.offset) :
    entryMatches fs2 e key hash = entryMatches fs e key hash := by
  unfold entryMatches
  rw [h]

theorem fs_write_at_slot_eq (fs : FS) (k v : List Nat) (i : Nat) :
    ∃ fsz : Nat, fs_write_at_slot fs k v i =
      { slots := fun j => if j = i then ⟨fs.data_end % 2 ^ 32, fs_hash k⟩ else fs.slots j
        num_slots := fs.num_slots
        arena := fs.arena ++ [⟨fs.data_end, FS_MAGIC, k, v⟩]
        data_end := fs.data_end + (RECORD_HEADER_SIZE + (k.length + 1) + v.length)
        num_entries := (fs.num_entries + 1) % 2 ^ 32
        file_size := fsz } := by
  simp only [fs_write_at_slot]
  split
  · simp only [fs_grow_file]
    split
    · exact ⟨fs.file_size, rfl⟩
    · exact ⟨_, rfl⟩
  · exact ⟨fs.file_size, rfl⟩

theorem read_after_write_components (fs fs2 : FS) (k v : List Nat) (i : Nat)
    (hde0 : 0 < fs.data_end) (hde32 : fs.data_end < 2 ^ 32)
    (harena : ∀ r ∈ fs.arena, r.offset ≠ fs.data_end)
    (hslots : ∀ j, (fs.slots j).offset ≠ fs.data_end)
    (hfs : fs_find_slot fs k = .empty i ∨ fs_find_slot fs k = .found i)
    (h2slots : fs2.slots =
      fun j => if j = i then ⟨fs.data_end % 2 ^ 32, fs_hash k⟩ else fs.slots j)
    (h2ns : fs2.num_slots = fs.num_slots)
    (h2arena : fs2.arena = fs.arena ++ [⟨fs.data_end, FS_MAGIC, k, v⟩]) :
    faststorage_read fs2 k v.length = .ok v := by
  have hdemod : fs.data_end % 2 ^ 32 = fs.data_end := Nat.mod_eq_of_lt hde32
  have hnewrec : recordAt fs2 fs.data_end = some ⟨fs.data_end, FS_MAGIC, k, v⟩ :=
    recordAt_arena_append_new fs fs2 ⟨fs.data_end, FS_MAGIC, k, v⟩ h2arena
      (fun r hr => harena r hr)
  have htarget : fs2.slots i = ⟨fs.data_end % 2 ^ 32, fs_hash k⟩ := by
    rw [h2slots]
    simp
  have hfind2 : fs_find_slot fs2 k = .found i := by
    unfold fs_find_slot
    rw [h2ns]
    refine fs_find_slot_aux_after_update fs fs2 k (fs_hash k) i h2ns ?_ ?_ ?_ ?_ _ _ hfs
    · intro j hj
      rw [h2slots]
      simp [hj]
    · intro j hj
      exact entryMatches_congr fs fs2 (fs.slots j) k (fs_hash k)
        (recordAt_arena_append fs fs2 _ h2arena _ (hslots j))
    · rw [htarget]
      simp only [hdemod]
      omega
    · rw [htarget]
      unfold entryMatches
      simp only [hdemod, hnewrec]
      simp
  unfold faststorage_read
  rw [hfind2]
  simp only [htarget, hdemod, hnewrec]
  simp

/-- C5 (amended): put-then-get round-trips — a successful
faststorage_write of value v under key k, immediately followed by a get of
k with a buffer of v's size, returns exactly v — provided the record is
written at an arena offset that is nonzero and below 2^32 (the hash slot
stores the 64-bit offset truncated to a uint32) and that offset is not
already referenced by any arena record or hash slot. -/
theorem store_roundtrip_amended :
  ∀ (fs : FS) (k v : List Nat) (fs2 : FS),
    0 < fs.data_end → fs.data_end < 2 ^ 32 →
    (∀ r ∈ fs.arena, r.offset ≠ fs.data_end) →
    (∀ j, (fs.slots j).offset ≠ fs.data_end) →
    faststorage_write fs k v = .ok fs2 →
    faststorage_read fs2 k v.length = .ok v := by
  intro fs k v fs2 hde0 hde32 harena hslots hw
  unfold faststorage_write at hw
  split at hw
  · exact absurd hw (by simp)
  · split at hw
    · exact absurd hw (by simp)
    · split at hw
      · exact absurd hw (by simp)
      · rename_i i heq
        cases hw
        obtain ⟨fsz, heq2⟩ := fs_write_at_slot_eq fs k v i
        exact read_after_write_components fs _ k v i hde0 hde32 harena hslots
          (Or.inl heq) (by rw [heq2]) (by rw [heq2]) (by rw [heq2])
      · rename_i i heq
        cases hw
        obtain ⟨fsz, heq2⟩ := fs_write_at_slot_eq fs k v i
        exact read_after_write_components fs _ k v i hde0 hde32 harena hslots
          (Or.inr heq) (by rw [heq2]) (by rw [heq2]) (by rw [heq2])

/-- C5 (counterexample): on a store whose arena end has reached 2^32, a
put succeeds but the slot stores the truncated offset 0 — the empty
marker — so an immediate get of the same key fails with ENOENT and exists
reports false: the round-trip claim fails without the arena-offset bound. -/
theorem store_roundtrip_breaks_at_4gib :
  exceptOkFS (faststorage_write c5_big c5_k c5_v) = true ∧
  faststorage_read (getOkFS (faststorage_write c5_big c5_k c5_v)) c5_k 16 =
    .error .ENOENT ∧
  faststorage_exists (getOkFS (faststorage_write c5_big c5_k c5_v)) c5_k = false :=
  ⟨rfl, rfl, rfl⟩

/-- C5 (witness): the round-trip theorem evaluated on a fresh store and a
concrete put of key c5w_k with value c5w_v. -/
theorem store_roundtrip_amended_witness :
  0 < (freshFS FS_MIN_CAPACITY).data_end ∧
  (freshFS FS_MIN_CAPACITY).data_end < 2 ^ 32 ∧
  faststorage_write (freshFS FS_MIN_CAPACITY) c5w_k c5w_v =
    .ok (getOkFS (faststorage_write (freshFS FS_MIN_CAPACITY) c5w_k c5w_v)) ∧
  faststorage_read (getOkFS (faststorage_write (freshFS FS_MIN_CAPACITY) c5w_k c5w_v))
    c5w_k 3 = .ok c5w_v :=
  ⟨by decide, by decide, rfl,
    store_roundtrip_amended (freshFS FS_MIN_CAPACITY) c5w_k c5w_v _
      (by decide) (by decide)
      (by intro r hr; simp [freshFS] at hr)
      (by intro j; simp only [freshFS]; decide)
      rfl⟩

theorem signal_handler_drop (s : EngineState) (a t ti : Nat)
    (hinit : s.initialized = true)
    (hfull : (s.ring_head + 1) % RING_CAPACITY = s.ring_tail) :
    (signal_handler s SIGSEGV a t ti).1 =
      { s with
        seq_counter := (s.seq_counter + 1) % 2 ^ 32
        dropped_events := (s.dropped_events + 1) % 2 ^ 32 } := by
  have hcond : ¬(SIGSEGV ≠ SIGSEGV ∨ s.initialized = false) := by simp [hinit]
  unfold signal_handler
  rw [if_neg hcond, if_pos hfull]

theorem signal_handler_enqueue (s : EngineState) (a t ti : Nat)
    (hinit : s.initialized = true)
    (hfull : ¬(s.ring_head + 1) % RING_CAPACITY = s.ring_tail) :
    (signal_handler s SIGSEGV a t ti).1 =
      { s with
        seq_counter := (s.seq_counter + 1) % 2 ^ 32
        ring := fun j => if j = s.ring_head then mkRawEvent a t ti s.seq_counter else s.ring j
        ring_head := (s.ring_head + 1) % RING_CAPACITY } := by
  have hcond : ¬(SIGSEGV ≠ SIGSEGV ∨ s.initialized = false) := by simp [hinit]
  unfold signal_handler
  rw [if_neg hcond, if_neg hfull]

theorem process_page_event_seq (pt : PageTable) (mem : Nat → Nat) (ev : PageEvent) :
    ∀ x ∈ (process_page_event pt mem ev).1, x.seq = ev.seq := by
  intro x hx
  cases hfind : page_table_find pt ev.page_start with
  | none =>
    unfold process_page_event at hx
    rw [hfind] at hx
    simp at hx
  | some regs =>
    rw [mem_process_page_event pt mem ev regs hfind] at hx
    obtain ⟨r, _, hr⟩ := hx
    rw [process_region_fst] at hr
    by_cases hch : hash_bytes (readBytes mem r.addr r.size) ≠ r.last_hash
    · rw [if_pos hch] at hr
      have he2 : x = build_change_event ev r mem := (Option.some.injEq _ _).mp hr.symm
      rw [he2]
      rfl
    · rw [if_neg hch] at hr
      exact absurd hr (by simp)

theorem gseqs_mem (d : List (List ChangeEvent)) (q : Nat) (hq : q ∈ groupSeqs d) :
    ∃ g ∈ d, ∃ x ∈ g, x.seq = q := by
  unfold groupSeqs at hq
  rw [List.mem_filterMap] at hq
  obtain ⟨g, hg, hmap⟩ := hq
  cases hh : g.head? with
  | none =>
    rw [hh] at hmap
    simp at hmap
  | some x =>
    rw [hh] at hmap
    simp at hmap
    exact ⟨g, hg, x, List.mem_of_mem_head? (Option.mem_def.mpr hh), hmap⟩

theorem seqinv_bump_core (e e2 : EngineState) (d : List (List ChangeEvent))
    (hinv : SeqInv e d)
    (hctr : e.seq_counter + 1 < 2 ^ 32)
    (h2init : e2.initialized = e.initialized)
    (h2ring : e2.ring = e.ring)
    (h2head : e2.ring_head = e.ring_head)
    (h2tail : e2.ring_tail = e.ring_tail)
    (h2ctr : e2.seq_counter = (e.seq_counter + 1) % 2 ^ 32) :
    SeqInv e2 d := by
  have hmod : (e.seq_counter + 1) % 2 ^ 32 = e.seq_counter + 1 := Nat.mod_eq_of_lt hctr
  have hused : ringUsed e2 = ringUsed e := by
    unfold ringUsed
    rw [h2head, h2tail]
  have hat : ∀ i, ringAt e2 i = ringAt e i := by
    intro i
    unfold ringAt
    rw [h2ring, h2tail]
  refine ⟨?_, ?_, ?_, ?_, ?_, ?_, ?_, ?_, ?_⟩
  · rw [h2init]; exact hinv.init_true
  · rw [h2head]; exact hinv.head_lt
  · rw [h2tail]; exact hinv.tail_lt
  · intro i j hij hj
    rw [hused] at hj
    rw [hat, hat]
    exact hinv.ring_sorted i j hij hj
  · intro i hi
    rw [hused] at hi
    rw [hat, h2ctr, hmod]
    have := hinv.ring_lt_ctr i hi
    omega
  · exact hinv.groups_const
  · intro g hg x hx
    rw [h2ctr, hmod]
    have := hinv.delivered_lt_ctr g hg x hx
    omega
  · intro g hg x hx i hi
    rw [hused] at hi
    rw [hat]
    exact hinv.delivered_lt_ring g hg x hx i hi
  · exact hinv.gseqs_sorted

theorem seqinv_enqueue_core (e e2 : EngineState) (d : List (List ChangeEvent)) (ev0 : PageEvent)
    (hinv : SeqInv e d)
    (hctr : e.seq_counter + 1 < 2 ^ 32)
    (hfull : ¬(e.ring_head + 1) % RING_CAPACITY = e.ring_tail)
    (h2init : e2.initialized = e.initialized)
    (h2ring : e2.ring = fun j => if j = e.ring_head then ev0 else e.ring j)
    (h2head : e2.ring_head = (e.ring_head + 1) % RING_CAPACITY)
    (h2tail : e2.ring_tail = e.ring_tail)
    (h2ctr : e2.seq_counter = (e.seq_counter + 1) % 2 ^ 32)
    (hseq : ev0.seq = e.seq_counter) :
    SeqInv e2 d := by
  have hC : RING_CAPACITY = 65536 := rfl
  have hh := hinv.head_lt
  have ht := hinv.tail_lt
  rw [hC] at hh ht
  have hfull' : ¬(e.ring_head + 1) % 65536 = e.ring_tail := by rw [hC] at hfull; exact hfull
  have hmod : (e.seq_counter + 1) % 2 ^ 32 = e.seq_counter + 1 := Nat.mod_eq_of_lt hctr
  have hused : ringUsed e2 = ringUsed e + 1 := by
    unfold ringUsed
    rw [h2head, h2tail, hC]
    omega
  have hidx : (e.ring_tail + ringUsed e) % RING_CAPACITY = e.ring_head := by
    unfold ringUsed
    rw [hC]
    omega
  have hidxne : ∀ i, i < ringUsed e → ¬(e.ring_tail + i) % RING_CAPACITY = e.ring_head := by
    intro i hi
    unfold ringUsed at hi
    rw [hC] at hi ⊢
    omega
  have hat : ∀ i, i ≤ ringUsed e → ringAt e2 i = if i = ringUsed e then ev0 else ringAt e i := by
    intro i hi
    unfold ringAt
    rw [h2ring, h2tail]
    show (if (e.ring_tail + i) % RING_CAPACITY = e.ring_head then ev0
        else e.ring ((e.ring_tail + i) % RING_CAPACITY)) =
      if i = ringUsed e then ev0 else e.ring ((e.ring_tail + i) % RING_CAPACITY)
    by_cases hie : i = ringUsed e
    · subst hie
      rw [if_pos hidx, if_pos rfl]
    · rw [if_neg (hidxne i (lt_of_le_of_ne hi hie)), if_neg hie]
  have husedlt : ringUsed e < 65536 := by
    unfold ringUsed
    rw [hC]
    omega
  refine ⟨?_, ?_, ?_, ?_, ?_, ?_, ?_, ?_, ?_⟩
  · rw [h2init]; exact hinv.init_true
  · rw [h2head, hC]; exact Nat.mod_lt _ (by norm_num)
  · rw [h2tail]; exact hinv.tail_lt
  · intro i j hij hj
    rw [hused] at hj
    rw [hat i (by omega), hat j (by omega)]
    by_cases hje : j = ringUsed e
    · rw [if_pos hje, if_neg (by omega), hseq]
      exact hinv.ring_lt_ctr i (by omega)
    · rw [if_neg hje, if_neg (by omega)]
      exact hinv.ring_sorted i j hij (by omega)
  · intro i hi
    rw [hused] at hi
    rw [h2ctr, hmod, hat i (by omega)]
    by_cases hie : i = ringUsed e
    · rw [if_pos hie, hseq]
      omega
    · rw [if_neg hie]
      have := hinv.ring_lt_ctr i (by omega)
      omega
  · exact hinv.groups_const
  · intro g hg x hx
    rw [h2ctr, hmod]
    have := hinv.delivered_lt_ctr g hg x hx
    omega
  · intro g hg x hx i hi
    rw [hused] at hi
    rw [hat i (by omega)]
    by_cases hie : i = ringUsed e
    · rw [if_pos hie, hseq]
      exact hinv.delivered_lt_ctr g hg x hx
    · rw [if_neg hie]
      exact hinv.delivered_lt_ring g hg x hx i (by omega)
  · exact hinv.gseqs_sorted

theorem seqinv_drain_core (e e2 : EngineState) (d : List (List ChangeEvent))
    (g : List ChangeEvent)
    (hinv : SeqInv e d)
    (hne : ¬e.ring_tail = e.ring_head)
    (h2init : e2.initialized = e.initialized)
    (h2ring : e2.ring = e.ring)
    (h2head : e2.ring_head = e.ring_head)
    (h2tail : e2.ring_tail = (e.ring_tail + 1) % RING_CAPACITY)
    (h2ctr : e2.seq_counter = e.seq_counter)
    (hg : ∀ x ∈ g, x.seq = (e.ring e.ring_tail).seq) :
    SeqInv e2 (d ++ [g]) := by
  have hC : RING_CAPACITY = 65536 := rfl
  have hh := hinv.head_lt
  have ht := hinv.tail_lt
  rw [hC] at hh ht
  have hused0 : 0 < ringUsed e := by
    unfold ringUsed
    rw [hC]
    omega
  have hused : ringUsed e2 = ringUsed e - 1 := by
    unfold ringUsed
    rw [h2head, h2tail, hC]
    omega
  have hat : ∀ i, ringAt e2 i = ringAt e (i + 1) := by
    intro i
    unfold ringAt
    rw [h2ring, h2tail, hC]
    congr 1
    omega
  have hev0 : ringAt e 0 = e.ring e.ring_tail := by
    unfold ringAt
    congr 1
    rw [hC]
    omega
  have hg0 : ∀ x ∈ g, x.seq = (ringAt e 0).seq := by
    intro x hx
    rw [hev0]
    exact hg x hx
  refine ⟨?_, ?_, ?_, ?_, ?_, ?_, ?_, ?_, ?_⟩
  · rw [h2init]; exact hinv.init_true
  · rw [h2head]; exact hinv.head_lt
  · rw [h2tail, hC]; exact Nat.mod_lt _ (by norm_num)
  · intro i j hij hj
    rw [hused] at hj
    rw [hat, hat]
    exact hinv.ring_sorted (i + 1) (j + 1) (by omega) (by omega)
  · intro i hi
    rw [hused] at hi
    rw [hat, h2ctr]
    exact hinv.ring_lt_ctr (i + 1) (by omega)
  · intro g2 hg2 x hx y hy
    rcases List.mem_append.mp hg2 with h | h
    · exact hinv.groups_const g2 h x hx y hy
    · have hgg : g2 = g := by simpa using h
      subst hgg
      rw [hg0 x hx, hg0 y hy]
  · intro g2 hg2 x hx
    rw [h2ctr]
    rcases List.mem_append.mp hg2 with h | h
    · exact hinv.delivered_lt_ctr g2 h x hx
    · have hgg : g2 = g := by simpa using h
      subst hgg
      rw [hg0 x hx]
      exact hinv.ring_lt_ctr 0 hused0
  · intro g2 hg2 x hx i hi
    rw [hused] at hi
    rw [hat]
    rcases List.mem_append.mp hg2 with h | h
    · exact hinv.delivered_lt_ring g2 h x hx (i + 1) (by omega)
    · have hgg : g2 = g := by simpa using h
      subst hgg
      rw [hg0 x hx]
      exact hinv.ring_sorted 0 (i + 1) (by omega) (by omega)
  · have happ : groupSeqs (d ++ [g]) = groupSeqs d ++ groupSeqs [g] := by
      unfold groupSeqs
      rw [List.filterMap_append]
    rw [happ, List.pairwise_append]
    refine ⟨hinv.gseqs_sorted, ?_, ?_⟩
    · cases g with
      | nil => simp [groupSeqs]
      | cons x xs => simp [groupSeqs]
    · intro q hq q2 hq2
      obtain ⟨gd, hgd, x, hxg, hxq⟩ := gseqs_mem d q hq
      obtain ⟨g2, hg2, y, hyg, hyq⟩ := gseqs_mem [g] q2 hq2
      have hgg : g2 = g := by simpa using hg2
      subst hgg
      rw [← hxq, ← hyq, hg0 y hyg]
      exact hinv.delivered_lt_ring gd hgd x hxg 0 hused0

theorem seqinv_fault (s : SysState) (a t ti : Nat)
    (hinv : SeqInv s.eng s.delivered)
    (hctr : s.eng.seq_counter + 1 < 2 ^ 32) :
    SeqInv (sys_step s (WOp.fault a t ti)).eng (sys_step s (WOp.fault a t ti)).delivered ∧
    (sys_step s (WOp.fault a t ti)).eng.seq_counter = s.eng.seq_counter + 1 := by
  have hstep : sys_step s (WOp.fault a t ti) =
      { s with eng := (signal_handler s.eng SIGSEGV a t ti).1 } := rfl
  by_cases hfull : (s.eng.ring_head + 1) % RING_CAPACITY = s.eng.ring_tail
  · rw [hstep, signal_handler_drop s.eng a t ti hinv.init_true hfull]
    exact ⟨seqinv_bump_core s.eng _ s.delivered hinv hctr rfl rfl rfl rfl rfl,
      Nat.mod_eq_of_lt hctr⟩
  · rw [hstep, signal_handler_enqueue s.eng a t ti hinv.init_true hfull]
    exact ⟨seqinv_enqueue_core s.eng _ s.delivered
        (mkRawEvent a t ti s.eng.seq_counter) hinv hctr hfull rfl rfl rfl rfl rfl rfl,
      Nat.mod_eq_of_lt hctr⟩

theorem seqinv_drain (s : SysState) (mem : Nat → Nat)
    (hinv : SeqInv s.eng s.delivered) :
    SeqInv (sys_step s (WOp.drain mem)).eng (sys_step s (WOp.drain mem)).delivered ∧
    (sys_step s (WOp.drain mem)).eng.seq_counter = s.eng.seq_counter := by
  show SeqInv (worker_drain_one s mem).eng (worker_drain_one s mem).delivered ∧
    (worker_drain_one s mem).eng.seq_counter = s.eng.seq_counter
  unfold worker_drain_one
  by_cases hne : s.eng.ring_tail = s.eng.ring_head
  · rw [if_pos hne]
    exact ⟨hinv, rfl⟩
  · rw [if_neg hne]
    refine ⟨seqinv_drain_core s.eng _ s.delivered _ hinv hne rfl rfl rfl rfl rfl ?_, rfl⟩
    intro x hx
    exact process_page_event_seq s.pt mem (s.eng.ring s.eng.ring_tail) x hx

theorem seqinv_run :
    ∀ (ops : List WOp) (s : SysState),
      SeqInv s.eng s.delivered →
      s.eng.seq_counter + faultCount ops < 2 ^ 32 →
      SeqInv (sys_run s ops).eng (sys_run s ops).delivered := by
  intro ops
  induction ops with
  | nil => intro s h _; exact h
  | cons op rest ih =>
    intro s h hctr
    cases op with
    | fault a t ti =>
      have hfc : faultCount (WOp.fault a t ti :: rest) = faultCount rest + 1 := by
        simp [faultCount, List.countP_cons]
      rw [hfc] at hctr
      have h1 := seqinv_fault s a t ti h (by omega)
      exact ih _ h1.1 (by rw [h1.2]; omega)
    | drain mem =>
      have hfc : faultCount (WOp.drain mem :: rest) = faultCount rest := by
        simp [faultCount, List.countP_cons]
      rw [hfc] at hctr
      have h1 := seqinv_drain s mem h
      exact ih _ h1.1 (by rw [h1.2]; omega)

theorem seqinv_init (pt : PageTable) : SeqInv (init_sys pt).eng (init_sys pt).delivered := by
  have hused : ringUsed (init_sys pt).eng = 0 := by
    show ringUsed init_engine = 0
    decide
  refine ⟨rfl, by show (0 : Nat) < RING_CAPACITY; decide,
    by show (0 : Nat) < RING_CAPACITY; decide, ?_, ?_, ?_, ?_, ?_, ?_⟩
  · intro i j _ hj
    rw [hused] at hj
    omega
  · intro i hi
    rw [hused] at hi
    omega
  · intro g hg
    simp [init_sys] at hg
  · intro g hg
    simp [init_sys] at hg
  · intro g hg
    simp [init_sys] at hg
  · show (groupSeqs (init_sys pt).delivered).Pairwise (· < ·)
    simp [groupSeqs, init_sys]

/-- C3 (amended): in any run of faults and worker drains from a freshly
initialised engine in which fewer than 2^32 - 1 faults occur (the
handler's 32-bit sequence counter must not wrap), all change events
published while draining one raw event carry that raw event's sequence
number, and the sequence numbers of successive delivered groups strictly
increase — so delivered seqs are non-decreasing in delivery order,
strictly increasing across distinct raw events, and equal only for events
generated from the same raw event. -/
theorem delivered_seq_order_amended :
  ∀ (pt : PageTable) (ops : List WOp), faultCount ops < 2 ^ 32 - 1 →
    (∀ g ∈ (sys_run (init_sys pt) ops).delivered, ∀ x ∈ g, ∀ y ∈ g, x.seq = y.seq) ∧
    (groupSeqs (sys_run (init_sys pt) ops).delivered).Pairwise (· < ·) := by
  intro pt ops h
  have hinv := seqinv_run ops (init_sys pt) (seqinv_init pt) (by
    have h1 : (init_sys pt).eng.seq_counter = 1 := rfl
    omega)
  exact ⟨hinv.groups_const, hinv.gseqs_sorted⟩

set_option maxRecDepth 200000 in
/-- C3 (counterexample): one raw fault on a page carrying two stale
regions is drained into two distinct change events (region ids 1 and 2)
that carry the same sequence number 1 and are delivered one after the
other — so two delivered events share a seq, and an event emitted before
another does not have a smaller seq. -/
theorem same_seq_delivered_for_two_regions :
  (sys_run (init_sys c3_pt) c3_ops).delivered.flatten.map (fun e => (e.region_id, e.seq)) =
    [(1, 1), (2, 1)] :=
  rfl

set_option maxRecDepth 200000 in
/-- C3 (witness): the amended ordering theorem evaluated on the concrete
two-region run (one fault, one drain). -/
theorem delivered_seq_order_amended_witness :
  faultCount c3_ops < 2 ^ 32 - 1 ∧
  ((∀ g ∈ (sys_run (init_sys c3_pt) c3_ops).delivered, ∀ x ∈ g, ∀ y ∈ g, x.seq = y.seq) ∧
    (groupSeqs (sys_run (init_sys c3_pt) c3_ops).delivered).Pairwise (· < ·)) :=
  ⟨by decide, delivered_seq_order_amended c3_pt c3_ops (by decide)⟩
